import Mathlib

/-!
Verification of the RAG (retrieval-augmented generation) engine of the
Profesor repository: chunking, cosine-similarity ranking with positional
fallback, embedding retry policy, and document-session lifecycle.

Strings are modelled as `List Char` (`Str`); the numeric type of the
source's floating-point vectors is modelled as `ℝ`.  The external
embedding provider is modelled as an oracle giving the outcome of each
HTTP attempt.  The character scanners are written with an explicit fuel
argument (initialised to the input length) so that they are structurally
recursive and evaluate inside the kernel.
-/

abbrev Str := List Char

/-- JavaScript whitespace class (`\s`, ASCII part): space, tab, newline,
carriage return, vertical tab, form feed. -/
def isWS (c : Char) : Bool :=
  c == ' ' || c == '\t' || c == '\n' || c == '\r' ||
  c == Char.ofNat 11 || c == Char.ofNat 12

/-- `String.prototype.trim()`: drop whitespace from both ends. -/
def trimLeft (l : Str) : Str := l.dropWhile isWS

def trimRight (l : Str) : Str := (l.reverse.dropWhile isWS).reverse

def trim (l : Str) : Str := trimRight (trimLeft l)

/-- Fuel-driven scanner for `words`. -/
def wordsGo : ℕ → Str → List Str
  | 0, _ => []
  | _ + 1, [] => []
  | f + 1, c :: rest =>
    if isWS c then wordsGo f rest
    else (c :: rest.takeWhile (fun d => !isWS d)) :: wordsGo f (rest.dropWhile (fun d => !isWS d))

/-- The whitespace-delimited words of a string (used to state
"content modulo whitespace normalization"). -/
def words (l : Str) : List Str := wordsGo l.length l

/-- Fuel-driven scanner for `text.split(/\n\n+/)`.  `cur` is the reversed
accumulator of the current piece. -/
def splitParasGo : ℕ → Str → Str → List Str
  | 0, _, cur => [cur.reverse]
  | _ + 1, [], cur => [cur.reverse]
  | f + 1, c :: rest, cur =>
    if c = '\n' ∧ rest.head? = some '\n' then
      cur.reverse :: splitParasGo f (rest.dropWhile (· == '\n')) []
    else
      splitParasGo f rest (c :: cur)

/-- `text.split(/\n\n+/)`: split on maximal runs of two or more newlines. -/
def splitParas (l : Str) : List Str := splitParasGo l.length l []

/-- Fuel-driven scanner for `text.split(/(?<=[.!?])\s+/)`.  `cur` is the
reversed accumulator, so `cur.head?` is the previously scanned character
(the lookbehind). -/
def splitSentsGo : ℕ → Str → Str → List Str
  | 0, _, cur => [cur.reverse]
  | _ + 1, [], cur => [cur.reverse]
  | f + 1, c :: rest, cur =>
    if isWS c ∧ (cur.head? = some '.' ∨ cur.head? = some '!' ∨ cur.head? = some '?') then
      cur.reverse :: splitSentsGo f (rest.dropWhile isWS) []
    else
      splitSentsGo f rest (c :: cur)

/-- `text.split(/(?<=[.!?])\s+/)`: split on maximal whitespace runs whose
preceding character is `.`, `!` or `?`. -/
def splitSents (l : Str) : List Str := splitSentsGo l.length l []

/-- `currentChunk.split(' ')`: split on every single space, keeping empty
pieces (JavaScript `split` with a string separator). -/
def splitSpace : Str → List Str
  | [] => [[]]
  | c :: rest =>
    if c = ' ' then [] :: splitSpace rest
    else match splitSpace rest with
      | [] => [[c]]
      | w :: ws => (c :: w) :: ws

/-- `arr.slice(-n)`: the last `min n arr.length` elements. -/
def lastN (n : ℕ) (l : List Str) : List Str := l.drop (l.length - n)

/-- The overlap seed of `chunkText`:
`currentChunk.split(' ').slice(-20).join(' ')`. -/
def overlapSeed (cur : Str) : Str := List.intercalate [' '] (lastN 20 (splitSpace cur))

/-- A chunk as produced by the chunker: `{ text, index }`. -/
structure PChunk where
  text : Str
  index : ℕ
deriving Repr, DecidableEq

/-- The paragraph-accumulation loop of `chunkText`, processing the
remaining paragraphs against state (accumulated chunks, current buffer,
next index), including the final flush of a non-whitespace buffer. -/
def chunkCore (chunkSize : ℕ) : List Str → List PChunk → Str → ℕ → List PChunk
  | [], chunks, cur, idx =>
    if trim cur ≠ [] then chunks ++ [⟨trim cur, idx⟩] else chunks
  | para :: ps, chunks, cur, idx =>
    if chunkSize < cur.length + para.length ∧ 0 < cur.length then
      chunkCore chunkSize ps (chunks ++ [⟨trim cur, idx⟩])
        (overlapSeed cur ++ [' '] ++ para) (idx + 1)
    else
      chunkCore chunkSize ps chunks
        (if cur = [] then para else cur ++ ['\n', '\n'] ++ para) idx

/-- The sentence-accumulation loop of `splitBySentences` (no overlap
seeding: the buffer restarts at the triggering sentence). -/
def sentCore (chunkSize : ℕ) : List Str → List PChunk → Str → ℕ → List PChunk
  | [], chunks, cur, idx =>
    if trim cur ≠ [] then chunks ++ [⟨trim cur, idx⟩] else chunks
  | s :: ss, chunks, cur, idx =>
    if chunkSize < cur.length + s.length ∧ 0 < cur.length then
      sentCore chunkSize ss (chunks ++ [⟨trim cur, idx⟩]) s (idx + 1)
    else
      sentCore chunkSize ss chunks (if cur = [] then s else cur ++ [' '] ++ s) idx

def splitBySentences (text : Str) (chunkSize : ℕ) : List PChunk :=
  sentCore chunkSize (splitSents text) [] [] 0

/-- The paragraph-based phase of `chunkText` (before the degenerate-input
fallback test). -/
def paragraphChunks (text : Str) (chunkSize : ℕ) : List PChunk :=
  chunkCore chunkSize (splitParas text) [] [] 0

/-- `chunkText(text, chunkSize = 1500, overlap = 200)`.  The `overlap`
parameter is accepted but (as in the source) never read: the overlap seed
is hard-coded to the last 20 words. -/
def chunkText (text : Str) (chunkSize : ℕ := 1500) (overlap : ℕ := 200) : List PChunk :=
  let chunks := paragraphChunks text chunkSize
  if chunks.length < 3 ∧ 1000 < text.length then splitBySentences text chunkSize
  else chunks


/-- Chunk metadata as stored by `processDocument`:
`{ index, title, hasEmbedding }`. -/
structure ChunkMeta where
  index : ℕ := 0
  title : Str := []
  hasEmbedding : Bool := false

/-- A stored chunk: `{ id, text, embedding, metadata }`. -/
structure Chunk where
  id : ℕ
  text : Str
  embedding : List ℝ
  metadata : ChunkMeta

/-- The in-memory vector store: `{ chunks, documentTitle }`. -/
structure RAGStore where
  chunks : List Chunk
  documentTitle : Str

def RAGStore.clear (_s : RAGStore) : RAGStore := { chunks := [], documentTitle := [] }

/-- `addChunk(text, embedding, metadata)`: pushes
`{ id: chunks.length, text, embedding, metadata }`. -/
def RAGStore.addChunk (s : RAGStore) (text : Str) (embedding : List ℝ)
    (metadata : ChunkMeta) : RAGStore :=
  { s with chunks := s.chunks ++ [⟨s.chunks.length, text, embedding, metadata⟩] }

/-- Dot product as accumulated by the `cosineSimilarity` loop. -/
def dotP (a b : List ℝ) : ℝ := (List.zipWith (· * ·) a b).sum

/-- `cosineSimilarity(a, b)`.  `none` models a `null`/`undefined`
argument; the JavaScript guard `!a || !b` is the `none` cases (an empty
array is truthy, so `some []` passes the guard and is caught by the
length comparison only when the lengths differ). -/
noncomputable def cosineSimilarity : Option (List ℝ) → Option (List ℝ) → ℝ
  | none, _ => 0
  | some _, none => 0
  | some a, some b =>
    if a.length ≠ b.length then 0
    else if dotP a a = 0 ∨ dotP b b = 0 then 0
    else dotP a b / (Real.sqrt (dotP a a) * Real.sqrt (dotP b b))

/-- The score `findSimilar` assigns to a chunk:
`chunk.embedding?.length > 0 ? cosineSimilarity(queryEmbedding, chunk.embedding) : 0`. -/
noncomputable def scoreOf (q : List ℝ) (c : Chunk) : ℝ :=
  if 0 < c.embedding.length then cosineSimilarity (some q) (some c.embedding) else 0

/-- Insertion into a list sorted by descending score; an element is
placed before the first strictly smaller-or-equal score.  Together with
`sortDesc` (insertion from the right) this models the ECMAScript
stable `Array.prototype.sort` under the comparator
`(a, b) => b.score - a.score`. -/
noncomputable def insertDesc (x : Chunk × ℝ) : List (Chunk × ℝ) → List (Chunk × ℝ)
  | [] => [x]
  | y :: ys => if y.2 ≤ x.2 then x :: y :: ys else y :: insertDesc x ys

noncomputable def sortDesc : List (Chunk × ℝ) → List (Chunk × ℝ)
  | [] => []
  | x :: xs => insertDesc x (sortDesc xs)

/-- `findSimilar(queryEmbedding, topK)`.  The source returns the scored
chunk objects (`{...chunk, score}`); the model returns the chunks, the
transient `score` annotation being recomputable via `scoreOf`. -/
noncomputable def RAGStore.findSimilar (s : RAGStore) (queryEmbedding : Option (List ℝ))
    (topK : ℕ) : List Chunk :=
  if s.chunks.length = 0 then []
  else
    match queryEmbedding with
    | none => s.chunks.take topK
    | some q =>
      if q.length = 0 then s.chunks.take topK
      else ((sortDesc (s.chunks.map (fun c => (c, scoreOf q c)))).take topK).map (·.1)

/-- Outcome of one `fetch` attempt of the embedding provider, as seen by
`generateEmbeddingWithRetry`: HTTP 429, another non-ok status, an ok
response whose parsed body yields `data.embedding?.values || null`
(`none` for a malformed body), or a thrown transport exception. -/
inductive FetchOutcome
  | rateLimited
  | notOk
  | okBody (v : Option (List ℝ))
  | throws

/-- The retry loop of `generateEmbeddingWithRetry`, instrumented with the
number of attempts performed.  `beh a` is the outcome of the attempt
numbered `a`.  The thrown-exception outcome is caught by the source's
`try/catch` and collapses to `null`. -/
def embedLoopF : ℕ → (ℕ → FetchOutcome) → ℕ → ℕ → Option (List ℝ) × ℕ
  | 0, _, _, _ => (none, 0)
  | f + 1, beh, retries, attempt =>
    if retries < attempt then (none, 0)
    else
      match beh attempt with
      | .rateLimited =>
        if attempt < retries then
          let r := embedLoopF f beh retries (attempt + 1)
          (r.1, r.2 + 1)
        else (none, 1)
      | .notOk => (none, 1)
      | .okBody v => (v, 1)
      | .throws => (none, 1)

def embedLoop (beh : ℕ → FetchOutcome) (retries : ℕ) (attempt : ℕ) :
    Option (List ℝ) × ℕ :=
  embedLoopF (retries + 1 - attempt) beh retries attempt

/-- `generateEmbeddingWithRetry(text, retries = 2)`: the value returned
to the caller. -/
def generateEmbeddingWithRetry (beh : ℕ → FetchOutcome) (retries : ℕ := 2) :
    Option (List ℝ) :=
  (embedLoop beh retries 0).1

/-- Number of provider attempts `generateEmbeddingWithRetry` performs. -/
def embedAttempts (beh : ℕ → FetchOutcome) (retries : ℕ := 2) : ℕ :=
  (embedLoop beh retries 0).2

/-- The same retry loop in an exception-transparent semantics: a thrown
transport exception, were it not caught, would surface as `.error`.  The
source's `catch` block maps it to `null`, which is the `.ok none` case
here; `embedLoopE` is the loop with the `catch` in place. -/
def embedLoopEF : ℕ → (ℕ → FetchOutcome) → ℕ → ℕ → Except Unit (Option (List ℝ))
  | 0, _, _, _ => .ok none
  | f + 1, beh, retries, attempt =>
    if retries < attempt then .ok none
    else
      match beh attempt with
      | .rateLimited =>
        if attempt < retries then embedLoopEF f beh retries (attempt + 1)
        else .ok none
      | .notOk => .ok none
      | .okBody v => .ok v
      | .throws => .ok none

def embedLoopE (beh : ℕ → FetchOutcome) (retries : ℕ) (attempt : ℕ) :
    Except Unit (Option (List ℝ)) :=
  embedLoopEF (retries + 1 - attempt) beh retries attempt

/-- The wait before retry number `attempt + 1`:
`setTimeout(r, 2000 * (attempt + 1))` (milliseconds). -/
def backoffDelayMs (attempt : ℕ) : ℕ := 2000 * (attempt + 1)

/-- `processDocument`'s per-chunk loop: for the chunk at loop index `i`,
the provider oracle yields `oracle i`; the chunk is stored with
`embedding || []` and `hasEmbedding: !!embedding`. -/
def addChunks (oracle : ℕ → Option (List ℝ)) (title : Str) :
    List PChunk → ℕ → RAGStore → RAGStore
  | [], _, st => st
  | c :: cs, i, st =>
    addChunks oracle title cs (i + 1)
      (st.addChunk c.text ((oracle i).getD [])
        { index := c.index, title := title, hasEmbedding := (oracle i).isSome })

/-- `processDocument(text, title, onProgress)`: clear the store, set the
title, chunk the text, store every chunk with its best-effort embedding,
return the final chunk count.  Progress reporting and the inter-chunk
pause are wall-clock effects with no bearing on the resulting state. -/
def processDocument (prior : RAGStore) (text title : Str)
    (oracle : ℕ → Option (List ℝ)) : RAGStore × ℕ :=
  let st0 : RAGStore := { prior.clear with documentTitle := title }
  let st1 := addChunks oracle title (chunkText text 1500 200) 0 st0
  (st1, st1.chunks.length)

/-- The separator `retrieveContext` joins chunk texts with:
`"\n\n---\n\n"`. -/
def contextSep : Str := ['\n', '\n', '-', '-', '-', '\n', '\n']

/-- `retrieveContext(query, topK = 4)`.  The query embedding is whatever
the timeout race produced (`none` on failure or timeout), modelled as the
`queryEmbedding` argument. -/
noncomputable def retrieveContext (s : RAGStore) (queryEmbedding : Option (List ℝ))
    (topK : ℕ := 4) : Str :=
  if s.chunks.length = 0 then []
  else List.intercalate contextSep ((s.findSimilar queryEmbedding topK).map (·.text))

section SpecSide

/-- Spec-side scored chunk, labelled with its insertion position. -/
structure SChunk where
  idx : ℕ
  chunk : Chunk
  score : ℝ

/-- Modelled from the spec: the score of a chunk — cosine similarity
against the query, `0` for a chunk whose embedding is empty. -/
noncomputable def specScore (q : List ℝ) (c : Chunk) : ℝ :=
  if c.embedding = [] then 0 else cosineSimilarity (some q) (some c.embedding)

/-- Modelled from the spec: insertion for the strict total order
"descending score, ties broken by original insertion order". -/
noncomputable def insertLex (x : SChunk) : List SChunk → List SChunk
  | [] => [x]
  | y :: ys =>
    if y.score < x.score ∨ (x.score = y.score ∧ x.idx < y.idx) then x :: y :: ys
    else y :: insertLex x ys

noncomputable def sortLex : List SChunk → List SChunk
  | [] => []
  | x :: xs => insertLex x (sortLex xs)

/-- Modelled from the spec: score every chunk, sort descending by score
with ties in insertion order, return the top `k`. -/
noncomputable def findSimilarSpec (s : RAGStore) (q : List ℝ) (k : ℕ) : List Chunk :=
  ((sortLex ((s.chunks.enum).map (fun p => ⟨p.1, p.2, specScore q p.2⟩))).map
    (·.chunk)).take k

end SpecSide

/-- The concatenated word sequences of a chunk list. -/
def wordsOfChunks (l : List PChunk) : List Str := (l.map (fun c => words c.text)).flatten

/-- Projection of a spec-side scored chunk to the source-side scored
pair. -/
def SChunk.toPair (s : SChunk) : Chunk × ℝ := (s.chunk, s.score)

/-- "Chunks whose embedding is empty sort last": whenever an
empty-embedding chunk precedes another chunk in the list, that later
chunk also has an empty embedding. -/
def emptiesLast (l : List Chunk) : Prop :=
  l.Pairwise (fun a b => a.embedding = [] → b.embedding = [])

/-- A 2000-character document with no blank lines (C6 scenario). -/
def text2000 : Str := List.replicate 2000 'a'

/-- A non-empty, all-whitespace document. -/
def wsOnlyText : Str := [' ']

/-- A document whose first paragraph is pure whitespace and long enough
to trigger a flush: 12 spaces, a blank line, then 12 letters. -/
def spaceParaText : Str :=
  List.replicate 12 ' ' ++ ['\n', '\n'] ++ List.replicate 12 'b'

/-- Concrete store for the C1 witness: one chunk with an embedding. -/
def exStoreOne : RAGStore := ⟨[⟨0, ['a'], [1], {}⟩], []⟩

/-- Chunk with an empty embedding (scores 0 in `findSimilar`). -/
def cexChunkA : Chunk := ⟨0, ['a'], [], {}⟩

/-- Chunk whose cosine similarity against the query `[1]` is `-1`. -/
def cexChunkB : Chunk := ⟨1, ['b'], [-1], {}⟩

/-- Store holding an empty-embedding chunk before a negatively-scoring
chunk. -/
def cexStore : RAGStore := ⟨[cexChunkA, cexChunkB], []⟩

/-- Concrete three-chunk store (no embeddings) for fallback witnesses. -/
def exStoreThree : RAGStore :=
  ⟨[⟨0, ['x'], [], {}⟩, ⟨1, ['y'], [], {}⟩, ⟨2, ['z'], [], {}⟩], []⟩

/-- Provider behaviour that rate-limits every attempt. -/
def behRateLimited : ℕ → FetchOutcome := fun _ => .rateLimited

section ScannerUnfolding

/-- The fuel argument of `wordsGo` is irrelevant as long as it dominates
the input length. -/
lemma wordsGo_congr : ∀ f g l, l.length ≤ f → l.length ≤ g → wordsGo f l = wordsGo g l := by
  intro f
  induction f with
  | zero =>
    intro g l hf _
    have : l = [] := List.length_eq_zero.mp (Nat.le_zero.mp hf)
    subst this
    cases g <;> rfl
  | succ f ih =>
    intro g l hf hg
    cases l with
    | nil => cases g <;> rfl
    | cons c rest =>
      cases g with
      | zero => simp at hg
      | succ g =>
        simp only [List.length_cons, Nat.succ_le_succ_iff] at hf hg
        simp only [wordsGo]
        by_cases h : isWS c
        · simp only [h, if_true]
          exact ih g rest hf hg
        · simp only [h, if_false, Bool.false_eq_true]
          have hd := (List.dropWhile_sublist (l := rest) (p := fun d => !isWS d)).length_le
          rw [ih g _ (le_trans hd hf) (le_trans hd hg)]

lemma words_nil : words [] = [] := rfl

lemma words_cons (c : Char) (rest : Str) :
    words (c :: rest) =
      if isWS c then words rest
      else (c :: rest.takeWhile (fun d => !isWS d)) ::
        words (rest.dropWhile (fun d => !isWS d)) := by
  show wordsGo (rest.length + 1) (c :: rest) = _
  simp only [wordsGo]
  by_cases h : isWS c
  · simp [h, words]
  · simp only [h, if_false, Bool.false_eq_true, words]
    have hd := (List.dropWhile_sublist (l := rest) (p := fun d => !isWS d)).length_le
    rw [wordsGo_congr rest.length _ _ hd le_rfl]

lemma splitParasGo_congr :
    ∀ f g l cur, l.length ≤ f → l.length ≤ g →
      splitParasGo f l cur = splitParasGo g l cur := by
  intro f
  induction f with
  | zero =>
    intro g l cur hf _
    have : l = [] := List.length_eq_zero.mp (Nat.le_zero.mp hf)
    subst this
    cases g <;> rfl
  | succ f ih =>
    intro g l cur hf hg
    cases l with
    | nil => cases g <;> rfl
    | cons c rest =>
      cases g with
      | zero => simp at hg
      | succ g =>
        simp only [List.length_cons, Nat.succ_le_succ_iff] at hf hg
        simp only [splitParasGo]
        have hd := (List.dropWhile_sublist (l := rest) (p := (· == '\n'))).length_le
        by_cases h : c = '\n' ∧ rest.head? = some '\n'
        · rw [if_pos h, if_pos h, ih g _ _ (le_trans hd hf) (le_trans hd hg)]
        · rw [if_neg h, if_neg h]
          exact ih g rest _ hf hg

lemma splitParasGo_spec_nil (cur : Str) :
    splitParasGo ([] : Str).length [] cur = [cur.reverse] := rfl

/-- One-step unfolding of the paragraph splitter at its natural fuel. -/
lemma splitParasGo_spec_cons (c : Char) (rest cur : Str) :
    splitParasGo (c :: rest).length (c :: rest) cur =
      if c = '\n' ∧ rest.head? = some '\n' then
        cur.reverse :: splitParasGo (rest.dropWhile (· == '\n')).length
          (rest.dropWhile (· == '\n')) []
      else
        splitParasGo rest.length rest (c :: cur) := by
  simp only [List.length_cons, splitParasGo]
  by_cases h : c = '\n' ∧ rest.head? = some '\n'
  · simp only [h, if_true]
    have hd := (List.dropWhile_sublist (l := rest) (p := (· == '\n'))).length_le
    rw [splitParasGo_congr rest.length _ _ _ hd le_rfl]
  · simp [h]

lemma splitSentsGo_congr :
    ∀ f g l cur, l.length ≤ f → l.length ≤ g →
      splitSentsGo f l cur = splitSentsGo g l cur := by
  intro f
  induction f with
  | zero =>
    intro g l cur hf _
    have : l = [] := List.length_eq_zero.mp (Nat.le_zero.mp hf)
    subst this
    cases g <;> rfl
  | succ f ih =>
    intro g l cur hf hg
    cases l with
    | nil => cases g <;> rfl
    | cons c rest =>
      cases g with
      | zero => simp at hg
      | succ g =>
        simp only [List.length_cons, Nat.succ_le_succ_iff] at hf hg
        simp only [splitSentsGo]
        have hd := (List.dropWhile_sublist (l := rest) (p := isWS)).length_le
        by_cases h : isWS c ∧ (cur.head? = some '.' ∨ cur.head? = some '!' ∨ cur.head? = some '?')
        · rw [if_pos h, if_pos h, ih g _ _ (le_trans hd hf) (le_trans hd hg)]
        · rw [if_neg h, if_neg h]
          exact ih g rest _ hf hg

/-- One-step unfolding of the sentence splitter at its natural fuel. -/
lemma splitSentsGo_spec_cons (c : Char) (rest cur : Str) :
    splitSentsGo (c :: rest).length (c :: rest) cur =
      if isWS c ∧ (cur.head? = some '.' ∨ cur.head? = some '!' ∨ cur.head? = some '?') then
        cur.reverse :: splitSentsGo (rest.dropWhile isWS).length (rest.dropWhile isWS) []
      else
        splitSentsGo rest.length rest (c :: cur) := by
  simp only [List.length_cons, splitSentsGo]
  by_cases h : isWS c ∧ (cur.head? = some '.' ∨ cur.head? = some '!' ∨ cur.head? = some '?')
  · simp only [h, if_true]
    have hd := (List.dropWhile_sublist (l := rest) (p := isWS)).length_le
    rw [splitSentsGo_congr rest.length _ _ _ hd le_rfl]
  · simp [h]

end ScannerUnfolding

section WordsLemmas

lemma dropWhile_append_of_ne (p : Char → Bool) :
    ∀ (l₁ : Str) (l₂ : Str), l₁.dropWhile p ≠ [] →
      (l₁ ++ l₂).dropWhile p = l₁.dropWhile p ++ l₂ := by
  intro l₁ l₂ h
  induction l₁ with
  | nil => simp at h
  | cons c t ih =>
    by_cases hc : p c
    · rw [List.cons_append, List.dropWhile_cons, if_pos hc]
      rw [List.dropWhile_cons, if_pos hc] at h ⊢
      exact ih h
    · rw [List.cons_append, List.dropWhile_cons, if_neg hc,
        List.dropWhile_cons, if_neg hc, List.cons_append]

lemma takeWhile_append_of_ne (p : Char → Bool) :
    ∀ (l₁ : Str) (l₂ : Str), l₁.dropWhile p ≠ [] →
      (l₁ ++ l₂).takeWhile p = l₁.takeWhile p := by
  intro l₁ l₂ h
  induction l₁ with
  | nil => simp at h
  | cons c t ih =>
    by_cases hc : p c
    · rw [List.dropWhile_cons, if_pos hc] at h
      rw [List.cons_append, List.takeWhile_cons, if_pos hc,
        List.takeWhile_cons, if_pos hc, ih h]
    · rw [List.cons_append, List.takeWhile_cons, if_neg hc,
        List.takeWhile_cons, if_neg hc]

lemma dropWhile_append_of_all (p : Char → Bool) :
    ∀ (l₁ : Str) (l₂ : Str), (∀ a ∈ l₁, p a) →
      (l₁ ++ l₂).dropWhile p = l₂.dropWhile p := by
  intro l₁ l₂ h
  induction l₁ with
  | nil => simp
  | cons c t ih =>
    rw [List.cons_append, List.dropWhile_cons, if_pos (h c (List.mem_cons_self c t))]
    exact ih fun a ha => h a (List.mem_cons_of_mem c ha)

lemma takeWhile_append_of_all (p : Char → Bool) :
    ∀ (l₁ : Str) (l₂ : Str), (∀ a ∈ l₁, p a) →
      (l₁ ++ l₂).takeWhile p = l₁ ++ l₂.takeWhile p := by
  intro l₁ l₂ h
  induction l₁ with
  | nil => simp
  | cons c t ih =>
    rw [List.cons_append, List.takeWhile_cons, if_pos (h c (List.mem_cons_self c t)),
      ih fun a ha => h a (List.mem_cons_of_mem c ha), List.cons_append]

lemma words_cons_ws {c : Char} (h : isWS c) (l : Str) : words (c :: l) = words l := by
  rw [words_cons, if_pos h]

/-- A single whitespace character in the middle splits the word list. -/
lemma words_append_ws {w : Char} (hw : isWS w) :
    ∀ (a b : Str), words (a ++ w :: b) = words a ++ words b := by
  have H : ∀ (n : ℕ) (a : Str), a.length ≤ n → ∀ b, words (a ++ w :: b) = words a ++ words b := by
    intro n
    induction n with
    | zero =>
      intro a ha b
      have : a = [] := List.length_eq_zero.mp (Nat.le_zero.mp ha)
      subst this
      rw [List.nil_append, words_cons_ws hw, words_nil, List.nil_append]
    | succ n ih =>
      intro a ha b
      cases a with
      | nil => rw [List.nil_append, words_cons_ws hw, words_nil, List.nil_append]
      | cons c t =>
        simp only [List.length_cons, Nat.succ_le_succ_iff] at ha
        by_cases hc : isWS c
        · rw [List.cons_append, words_cons_ws hc, words_cons_ws hc, ih t ha b]
        · have hnw : (fun d => !isWS d) w = false := by simp [hw]
          rw [List.cons_append, words_cons, if_neg (by simp [hc]),
            words_cons c t, if_neg (by simp [hc])]
          by_cases hd : t.dropWhile (fun d => !isWS d) = []
          · have hall : ∀ a ∈ t, (fun d => !isWS d) a := List.dropWhile_eq_nil_iff.mp hd
            have htw : t.takeWhile (fun d => !isWS d) = t := by
              have := takeWhile_append_of_all _ t [] hall
              simpa using this
            rw [takeWhile_append_of_all _ t (w :: b) hall,
              dropWhile_append_of_all _ t (w :: b) hall]
            simp only [List.takeWhile_cons, List.dropWhile_cons, hw, Bool.not_true,
              Bool.false_eq_true, if_false, List.append_nil]
            rw [words_cons_ws hw, htw, hd, words_nil, List.cons_append, List.nil_append]
          · rw [takeWhile_append_of_ne _ t (w :: b) hd, dropWhile_append_of_ne _ t (w :: b) hd]
            have hlen := (List.dropWhile_sublist (l := t) (p := fun d => !isWS d)).length_le
            rw [ih _ (le_trans hlen ha) b, List.cons_append]
  intro a b
  exact H a.length a le_rfl b

lemma words_allWS {s : Str} (h : ∀ c ∈ s, isWS c) : words s = [] := by
  induction s with
  | nil => rfl
  | cons c t ih =>
    rw [words_cons_ws (h c (List.mem_cons_self c t))]
    exact ih fun a ha => h a (List.mem_cons_of_mem c ha)

lemma words_allWS_append {s : Str} (h : ∀ c ∈ s, isWS c) (b : Str) :
    words (s ++ b) = words b := by
  induction s with
  | nil => rfl
  | cons c t ih =>
    rw [List.cons_append, words_cons_ws (h c (List.mem_cons_self c t))]
    exact ih fun a ha => h a (List.mem_cons_of_mem c ha)

/-- A non-empty whitespace run in the middle splits the word list. -/
lemma words_append_run {s : Str} (hne : s ≠ []) (hall : ∀ c ∈ s, isWS c) (a b : Str) :
    words (a ++ (s ++ b)) = words a ++ words b := by
  cases s with
  | nil => exact absurd rfl hne
  | cons w t =>
    rw [List.cons_append, words_append_ws (hall w (List.mem_cons_self w t)) a (t ++ b),
      words_allWS_append (fun c hc => hall c (List.mem_cons_of_mem w hc)) b]

lemma words_append_allWS_right {s : Str} (hall : ∀ c ∈ s, isWS c) (a : Str) :
    words (a ++ s) = words a := by
  cases s with
  | nil => rw [List.append_nil]
  | cons w t =>
    rw [words_append_ws (hall w (List.mem_cons_self w t)) a t,
      words_allWS fun c hc => hall c (List.mem_cons_of_mem w hc), List.append_nil]

lemma words_eq_nil_iff {l : Str} : words l = [] ↔ ∀ c ∈ l, isWS c := by
  constructor
  · intro h
    induction l with
    | nil => intro c hc; simp at hc
    | cons c t ih =>
      by_cases hc : isWS c
      · rw [words_cons_ws hc] at h
        intro d hd
        rcases List.mem_cons.mp hd with rfl | hd
        · exact hc
        · exact ih h d hd
      · rw [words_cons, if_neg (by simp [hc])] at h
        simp at h
  · exact words_allWS

lemma trimLeft_decomp (l : Str) :
    l = l.takeWhile isWS ++ trimLeft l ∧ ∀ c ∈ l.takeWhile isWS, isWS c :=
  ⟨(List.takeWhile_append_dropWhile isWS l).symm, fun _ hc => List.mem_takeWhile_imp hc⟩

lemma trimRight_decomp (l : Str) :
    l = trimRight l ++ (l.reverse.takeWhile isWS).reverse ∧
      ∀ c ∈ (l.reverse.takeWhile isWS).reverse, isWS c := by
  constructor
  · have h := List.takeWhile_append_dropWhile isWS l.reverse
    have := congrArg List.reverse h
    rw [List.reverse_append, List.reverse_reverse] at this
    exact this.symm
  · intro c hc
    exact List.mem_takeWhile_imp (List.mem_reverse.mp hc)

lemma words_trimLeft (l : Str) : words (trimLeft l) = words l := by
  conv_rhs => rw [(trimLeft_decomp l).1]
  rw [words_allWS_append (trimLeft_decomp l).2]

lemma words_trimRight (l : Str) : words (trimRight l) = words l := by
  conv_rhs => rw [(trimRight_decomp l).1]
  rw [words_append_allWS_right (trimRight_decomp l).2]

lemma words_trim (l : Str) : words (trim l) = words l := by
  rw [trim, words_trimRight, words_trimLeft]

lemma trimRight_eq_nil_iff {l : Str} : trimRight l = [] ↔ ∀ c ∈ l, isWS c := by
  rw [trimRight, List.reverse_eq_nil_iff, List.dropWhile_eq_nil_iff]
  constructor
  · intro h c hc
    exact h c (List.mem_reverse.mpr hc)
  · intro h c hc
    exact h c (List.mem_reverse.mp hc)

lemma trim_eq_nil_iff {l : Str} : trim l = [] ↔ ∀ c ∈ l, isWS c := by
  rw [trim, trimRight_eq_nil_iff]
  constructor
  · intro h c hc
    conv at hc => rw [(trimLeft_decomp l).1]
    rcases List.mem_append.mp hc with h1 | h1
    · exact (trimLeft_decomp l).2 c h1
    · exact h c h1
  · intro h c hc
    exact h c ((List.dropWhile_sublist (l := l) (p := isWS)).mem hc)

lemma words_eq_nil_iff_trim {l : Str} : words l = [] ↔ trim l = [] := by
  rw [words_eq_nil_iff, trim_eq_nil_iff]

lemma trimLeft_idem (l : Str) : trimLeft (trimLeft l) = trimLeft l :=
  List.dropWhile_idempotent isWS l

lemma trimRight_idem (l : Str) : trimRight (trimRight l) = trimRight l := by
  rw [trimRight, trimRight, List.reverse_reverse, List.dropWhile_idempotent]

lemma trimLeft_trimRight_of_trimLeft {l : Str} (h : trimLeft l = l) :
    trimLeft (trimRight l) = trimRight l := by
  cases l with
  | nil => rfl
  | cons c t =>
    have hc : ¬ isWS c := by
      intro hws
      rw [trimLeft, List.dropWhile_cons, if_pos hws] at h
      have := congrArg List.length h
      have hle := (List.dropWhile_sublist (l := t) (p := isWS)).length_le
      simp only [List.length_cons] at this
      omega
    rw [trimRight, List.reverse_cons]
    by_cases hd : t.reverse.dropWhile isWS = []
    · rw [dropWhile_append_of_all isWS t.reverse [c] (List.dropWhile_eq_nil_iff.mp hd)]
      have h1 : List.dropWhile isWS [c] = [c] := by
        rw [List.dropWhile_cons]
        simp [hc]
      rw [h1]
      simp [trimLeft, List.dropWhile_cons, hc]
    · rw [dropWhile_append_of_ne isWS t.reverse [c] hd, List.reverse_append,
        List.reverse_cons, List.reverse_nil, List.nil_append, trimLeft,
        List.singleton_append, List.dropWhile_cons]
      simp [hc]

lemma trim_trim (l : Str) : trim (trim l) = trim l := by
  have h1 : trimLeft (trim l) = trim l :=
    trimLeft_trimRight_of_trimLeft (trimLeft_idem l)
  rw [trim, h1]
  exact trimRight_idem _

end WordsLemmas

section SplitterWords

/-- The words of the pieces of the paragraph splitter are exactly the
words of the input: the discarded separators are whitespace runs. -/
lemma splitParasGo_words :
    ∀ (f : ℕ) (l cur : Str), l.length ≤ f →
      ((splitParasGo f l cur).map words).flatten = words (cur.reverse ++ l) := by
  intro f
  induction f with
  | zero =>
    intro l cur hf
    have : l = [] := List.length_eq_zero.mp (Nat.le_zero.mp hf)
    subst this
    simp [splitParasGo]
  | succ f ih =>
    intro l cur hf
    cases l with
    | nil => simp [splitParasGo]
    | cons c rest =>
      simp only [List.length_cons, Nat.succ_le_succ_iff] at hf
      simp only [splitParasGo]
      have hd := (List.dropWhile_sublist (l := rest) (p := (· == '\n'))).length_le
      by_cases h : c = '\n' ∧ rest.head? = some '\n'
      · rw [if_pos h]
        simp only [List.map_cons, List.flatten_cons]
        rw [ih _ _ (le_trans hd hf), List.reverse_nil, List.nil_append]
        have hsep : ∀ a ∈ (c :: rest.takeWhile (· == '\n') : Str), isWS a := by
          intro a ha
          rcases List.mem_cons.mp ha with rfl | ha
          · rw [h.1]; rfl
          · have := List.mem_takeWhile_imp ha
            rw [show a = '\n' from by simpa using this]
            rfl
        have hrw : (c :: rest : Str) =
            (c :: rest.takeWhile (· == '\n')) ++ rest.dropWhile (· == '\n') := by
          rw [List.cons_append, List.takeWhile_append_dropWhile]
        rw [hrw, words_append_run (List.cons_ne_nil _ _) hsep]
      · rw [if_neg h, ih _ _ hf, List.reverse_cons, List.append_assoc,
          List.singleton_append]

lemma splitParas_words (t : Str) : ((splitParas t).map words).flatten = words t := by
  have := splitParasGo_words t.length t [] le_rfl
  simpa [splitParas] using this

/-- The words of the pieces of the sentence splitter are exactly the
words of the input. -/
lemma splitSentsGo_words :
    ∀ (f : ℕ) (l cur : Str), l.length ≤ f →
      ((splitSentsGo f l cur).map words).flatten = words (cur.reverse ++ l) := by
  intro f
  induction f with
  | zero =>
    intro l cur hf
    have : l = [] := List.length_eq_zero.mp (Nat.le_zero.mp hf)
    subst this
    simp [splitSentsGo]
  | succ f ih =>
    intro l cur hf
    cases l with
    | nil => simp [splitSentsGo]
    | cons c rest =>
      simp only [List.length_cons, Nat.succ_le_succ_iff] at hf
      simp only [splitSentsGo]
      have hd := (List.dropWhile_sublist (l := rest) (p := isWS)).length_le
      by_cases h : isWS c ∧ (cur.head? = some '.' ∨ cur.head? = some '!' ∨ cur.head? = some '?')
      · rw [if_pos h]
        simp only [List.map_cons, List.flatten_cons]
        rw [ih _ _ (le_trans hd hf), List.reverse_nil, List.nil_append]
        have hsep : ∀ a ∈ (c :: rest.takeWhile isWS : Str), isWS a := by
          intro a ha
          rcases List.mem_cons.mp ha with rfl | ha
          · exact h.1
          · exact List.mem_takeWhile_imp ha
        have hrw : (c :: rest : Str) =
            (c :: rest.takeWhile isWS) ++ rest.dropWhile isWS := by
          rw [List.cons_append, List.takeWhile_append_dropWhile]
        rw [hrw, words_append_run (List.cons_ne_nil _ _) hsep]
      · rw [if_neg h, ih _ _ hf, List.reverse_cons, List.append_assoc,
          List.singleton_append]

lemma splitSents_words (t : Str) : ((splitSents t).map words).flatten = words t := by
  have := splitSentsGo_words t.length t [] le_rfl
  simpa [splitSents] using this

end SplitterWords

section ChunkWords

lemma wordsOfChunks_append (l₁ l₂ : List PChunk) :
    wordsOfChunks (l₁ ++ l₂) = wordsOfChunks l₁ ++ wordsOfChunks l₂ := by
  simp [wordsOfChunks]

lemma wordsOfChunks_push (l : List PChunk) (c : PChunk) :
    wordsOfChunks (l ++ [c]) = wordsOfChunks l ++ words c.text := by
  simp [wordsOfChunks]

/-- Every word of the input survives into the accumulated chunks of the
paragraph loop (overlap seeding only ever duplicates words). -/
lemma chunkCore_words (cs : ℕ) :
    ∀ (ps : List Str) (chunks : List PChunk) (cur : Str) (idx : ℕ),
      List.Sublist (wordsOfChunks chunks ++ words cur ++ ((ps.map words).flatten))
        (wordsOfChunks (chunkCore cs ps chunks cur idx)) := by
  intro ps
  induction ps with
  | nil =>
    intro chunks cur idx
    simp only [chunkCore, List.map_nil, List.flatten_nil, List.append_nil]
    by_cases h : trim cur ≠ []
    · rw [if_pos h, wordsOfChunks_push, words_trim]
    · rw [if_neg h]
      push_neg at h
      rw [words_eq_nil_iff_trim.mpr h, List.append_nil]
  | cons p ps ih =>
    intro chunks cur idx
    simp only [chunkCore, List.map_cons, List.flatten_cons]
    by_cases h : cs < cur.length + p.length ∧ 0 < cur.length
    · rw [if_pos h]
      refine List.Sublist.trans ?_ (ih (chunks ++ [⟨trim cur, idx⟩])
        (overlapSeed cur ++ [' '] ++ p) (idx + 1))
      rw [wordsOfChunks_push, words_trim]
      have hseed : words (overlapSeed cur ++ [' '] ++ p) =
          words (overlapSeed cur) ++ words p := by
        rw [List.append_assoc, List.singleton_append,
          words_append_ws (show isWS ' ' from rfl)]
      rw [hseed]
      simp only [List.append_assoc]
      exact (List.Sublist.refl _).append ((List.Sublist.refl _).append
        (List.sublist_append_right _ _))
    · rw [if_neg h]
      refine List.Sublist.trans ?_ (ih chunks
        (if cur = [] then p else cur ++ ['\n', '\n'] ++ p) idx)
      have hcur : words (if cur = [] then p else cur ++ ['\n', '\n'] ++ p) =
          words cur ++ words p := by
        by_cases hc : cur = []
        · rw [if_pos hc, hc, words_nil, List.nil_append]
        · rw [if_neg hc, List.append_assoc]
          exact @words_append_run ['\n', '\n'] (by decide) (by decide) cur p
      rw [hcur]
      simp only [List.append_assoc]
      exact List.Sublist.refl _

/-- The sentence loop loses and duplicates nothing: the words of its
chunks are exactly the prior words plus the words of the sentences. -/
lemma sentCore_words (cs : ℕ) :
    ∀ (ss : List Str) (chunks : List PChunk) (cur : Str) (idx : ℕ),
      wordsOfChunks (sentCore cs ss chunks cur idx) =
        wordsOfChunks chunks ++ words cur ++ ((ss.map words).flatten) := by
  intro ss
  induction ss with
  | nil =>
    intro chunks cur idx
    simp only [sentCore, List.map_nil, List.flatten_nil, List.append_nil]
    by_cases h : trim cur ≠ []
    · rw [if_pos h, wordsOfChunks_push, words_trim]
    · rw [if_neg h]
      push_neg at h
      rw [words_eq_nil_iff_trim.mpr h, List.append_nil]
  | cons s ss ih =>
    intro chunks cur idx
    simp only [sentCore, List.map_cons, List.flatten_cons]
    by_cases h : cs < cur.length + s.length ∧ 0 < cur.length
    · rw [if_pos h, ih, wordsOfChunks_push, words_trim]
      simp [List.append_assoc]
    · rw [if_neg h, ih]
      have hcur : words (if cur = [] then s else cur ++ [' '] ++ s) =
          words cur ++ words s := by
        by_cases hc : cur = []
        · rw [if_pos hc, hc, words_nil, List.nil_append]
        · rw [if_neg hc, List.append_assoc, List.singleton_append,
            words_append_ws (show isWS ' ' from rfl)]
      rw [hcur]
      simp [List.append_assoc]

lemma splitBySentences_words (t : Str) (cs : ℕ) :
    wordsOfChunks (splitBySentences t cs) = words t := by
  rw [splitBySentences, sentCore_words, splitSents_words]
  rfl

/-- Every word of the document appears, in order, among the words of the
chunk texts (on both chunking paths). -/
lemma chunkText_words_sublist (t : Str) (cs ov : ℕ) :
    List.Sublist (words t) (wordsOfChunks (chunkText t cs ov)) := by
  rw [chunkText]
  by_cases h : (paragraphChunks t cs).length < 3 ∧ 1000 < t.length
  · simp only [if_pos h]
    rw [splitBySentences_words]
  · simp only [if_neg h]
    have := chunkCore_words cs (splitParas t) [] [] 0
    rw [splitParas_words] at this
    simpa [paragraphChunks, wordsOfChunks] using this

lemma chunkText_ne_nil (t : Str) (cs ov : ℕ) (h : trim t ≠ []) :
    chunkText t cs ov ≠ [] := by
  intro hnil
  have hsub := chunkText_words_sublist t cs ov
  rw [hnil] at hsub
  have : words t = [] := List.sublist_nil.mp (by simpa [wordsOfChunks] using hsub)
  exact h (words_eq_nil_iff_trim.mp this)

end ChunkWords

section SortEquivalence

lemma mem_insertLex {z x : SChunk} : ∀ {ys : List SChunk}, z ∈ insertLex x ys → z = x ∨ z ∈ ys := by
  intro ys
  induction ys with
  | nil =>
    intro h
    simp only [insertLex, List.mem_singleton] at h
    exact Or.inl h
  | cons y ys ih =>
    intro h
    rw [insertLex] at h
    by_cases hc : y.score < x.score ∨ (x.score = y.score ∧ x.idx < y.idx)
    · rw [if_pos hc] at h
      rcases List.mem_cons.mp h with rfl | h1
      · exact Or.inl rfl
      · exact Or.inr h1
    · rw [if_neg hc] at h
      rcases List.mem_cons.mp h with rfl | h1
      · exact Or.inr (List.mem_cons_self _ _)
      · rcases ih h1 with h2 | h2
        · exact Or.inl h2
        · exact Or.inr (List.mem_cons_of_mem _ h2)

lemma mem_sortLex {z : SChunk} : ∀ {l : List SChunk}, z ∈ sortLex l → z ∈ l := by
  intro l
  induction l with
  | nil => intro h; simp [sortLex] at h
  | cons x xs ih =>
    intro h
    rw [sortLex] at h
    rcases mem_insertLex h with rfl | h1
    · exact List.mem_cons_self _ _
    · exact List.mem_cons_of_mem _ (ih h1)

/-- On a tail whose labels all exceed `x`'s, inserting by the
lexicographic key (score desc, label asc) is inserting stably by score
alone. -/
lemma insertLex_toPair {x : SChunk} :
    ∀ {ys : List SChunk}, (∀ y ∈ ys, x.idx < y.idx) →
      (insertLex x ys).map SChunk.toPair = insertDesc x.toPair (ys.map SChunk.toPair) := by
  intro ys
  induction ys with
  | nil => intro _; rfl
  | cons y ys ih =>
    intro hidx
    have hxy : x.idx < y.idx := hidx y (List.mem_cons_self _ _)
    have hcond : (y.score < x.score ∨ (x.score = y.score ∧ x.idx < y.idx)) ↔
        y.score ≤ x.score := by
      constructor
      · rintro (h1 | ⟨h1, _⟩)
        · exact le_of_lt h1
        · exact le_of_eq h1.symm
      · intro h1
        rcases lt_or_eq_of_le h1 with h2 | h2
        · exact Or.inl h2
        · exact Or.inr ⟨h2.symm, hxy⟩
    rw [insertLex]
    by_cases hle : y.score ≤ x.score
    · rw [if_pos (hcond.mpr hle)]
      simp only [List.map_cons, insertDesc]
      rw [if_pos (show (SChunk.toPair y).2 ≤ (SChunk.toPair x).2 from hle)]
    · rw [if_neg (fun hc => hle (hcond.mp hc))]
      simp only [List.map_cons, insertDesc]
      rw [if_neg (show ¬ (SChunk.toPair y).2 ≤ (SChunk.toPair x).2 from hle),
        ih (fun z hz => hidx z (List.mem_cons_of_mem _ hz))]

/-- On a list with strictly increasing labels, the spec-side
lexicographic sort projects to the source-side stable descending sort. -/
lemma sortLex_toPair :
    ∀ {l : List SChunk}, l.Pairwise (fun a b => a.idx < b.idx) →
      (sortLex l).map SChunk.toPair = sortDesc (l.map SChunk.toPair) := by
  intro l
  induction l with
  | nil => intro _; rfl
  | cons x xs ih =>
    intro hp
    rcases List.pairwise_cons.mp hp with ⟨hx, hxs⟩
    rw [sortLex, List.map_cons, sortDesc, ← ih hxs]
    exact insertLex_toPair fun y hy => hx y (mem_sortLex hy)

lemma pairwise_fst_lt_enumFrom {α : Type} :
    ∀ (l : List α) (n : ℕ), (l.enumFrom n).Pairwise (fun a b => a.1 < b.1) := by
  intro l
  induction l with
  | nil => intro n; simp
  | cons x xs ih =>
    intro n
    simp only [List.enumFrom]
    refine List.pairwise_cons.mpr ⟨?_, ih (n + 1)⟩
    intro y hy
    have := (List.mem_enumFrom hy).1
    omega

lemma scoreOf_eq_specScore (q : List ℝ) (c : Chunk) : scoreOf q c = specScore q c := by
  rw [scoreOf, specScore]
  by_cases h : c.embedding = []
  · rw [if_pos h, if_neg (by rw [h]; simp)]
  · rw [if_neg h, if_pos (List.length_pos.mpr h)]

end SortEquivalence

section StoreLemmas

lemma addChunks_texts (oracle : ℕ → Option (List ℝ)) (title : Str) :
    ∀ (cs : List PChunk) (i : ℕ) (st : RAGStore),
      (addChunks oracle title cs i st).chunks.map (·.text) =
        st.chunks.map (·.text) ++ cs.map (·.text) := by
  intro cs
  induction cs with
  | nil => intro i st; simp [addChunks]
  | cons c cs ih =>
    intro i st
    rw [addChunks, ih]
    simp [RAGStore.addChunk]

lemma addChunks_length (oracle : ℕ → Option (List ℝ)) (title : Str) :
    ∀ (cs : List PChunk) (i : ℕ) (st : RAGStore),
      (addChunks oracle title cs i st).chunks.length = st.chunks.length + cs.length := by
  intro cs
  induction cs with
  | nil => intro i st; simp [addChunks]
  | cons c cs ih =>
    intro i st
    rw [addChunks, ih]
    simp [RAGStore.addChunk]
    omega

end StoreLemmas

/-- C1 (amended): for a non-empty store and a present, non-empty query
embedding, `findSimilar` returns the top `topK` chunks under the
ranking "score descending, ties in insertion order", where a chunk with
an empty embedding scores `0` and any other chunk scores its cosine
similarity against the query — as computed by the spec-side
`findSimilarSpec`.  (The original claim's parenthetical "and sort last"
fails: an empty-embedding chunk precedes any negatively-scoring chunk;
see the counterexample.) -/
theorem findSimilar_matches_spec (s : RAGStore) (q : List ℝ) (k : ℕ)
    (hq : q ≠ []) (hs : s.chunks ≠ []) :
    s.findSimilar (some q) k = findSimilarSpec s q k := by
  have h1 : ¬ s.chunks.length = 0 := by simpa [List.length_eq_zero] using hs
  have h2 : ¬ q.length = 0 := by simpa [List.length_eq_zero] using hq
  rw [RAGStore.findSimilar, if_neg h1]
  show (if q.length = 0 then s.chunks.take k
    else ((sortDesc (s.chunks.map (fun c => (c, scoreOf q c)))).take k).map (·.1)) = _
  rw [if_neg h2, findSimilarSpec]
  set labeled : List SChunk :=
    (s.chunks.enum).map (fun p => ⟨p.1, p.2, specScore q p.2⟩) with hlabdef
  have hlab : labeled.Pairwise (fun a b => a.idx < b.idx) := by
    rw [hlabdef, List.pairwise_map]
    exact pairwise_fst_lt_enumFrom s.chunks 0
  have hmap : labeled.map SChunk.toPair = s.chunks.map (fun c => (c, scoreOf q c)) := by
    rw [hlabdef, List.map_map]
    have e1 : (SChunk.toPair ∘ fun p : ℕ × Chunk => (⟨p.1, p.2, specScore q p.2⟩ : SChunk)) =
        fun p : ℕ × Chunk => (p.2, scoreOf q p.2) := by
      funext p
      simp [SChunk.toPair, scoreOf_eq_specScore]
    rw [e1]
    have e2 : (fun p : ℕ × Chunk => (p.2, scoreOf q p.2)) =
        (fun c : Chunk => (c, scoreOf q c)) ∘ Prod.snd := rfl
    rw [e2, ← List.map_map, List.enum_map_snd]
  rw [← hmap, ← sortLex_toPair hlab, List.map_take, List.map_map]
  have e3 : ((fun p : Chunk × ℝ => p.1) ∘ SChunk.toPair) = fun s : SChunk => s.chunk := by
    funext z
    rfl
  rw [e3]

/-- Witness for C1's amended theorem at a concrete one-chunk store and
query `[1]`. -/
theorem findSimilar_matches_spec_witness :
    exStoreOne.findSimilar (some [1]) 1 = findSimilarSpec exStoreOne [1] 1 :=
  findSimilar_matches_spec exStoreOne [1] 1 (by simp) (by simp [exStoreOne])

/-- Counterexample to C1 as stated: in `cexStore` the empty-embedding
chunk scores `0` and the other chunk scores `-1`, so the empty-embedding
chunk sorts first, not last. -/
theorem findSimilar_empties_not_last :
    ¬ emptiesLast (cexStore.findSimilar (some [1]) 2) := by
  have hA : scoreOf [1] cexChunkA = 0 := by
    rw [scoreOf, if_neg]
    simp [cexChunkA]
  have hd1 : dotP [(1 : ℝ)] [1] = 1 := by simp [dotP]
  have hd2 : dotP [(-1 : ℝ)] [-1] = 1 := by simp [dotP]
  have hd3 : dotP [(1 : ℝ)] [-1] = -1 := by simp [dotP]
  have hcos : cosineSimilarity (some [(1 : ℝ)]) (some [(-1 : ℝ)]) = -1 := by
    simp only [cosineSimilarity]
    rw [if_neg (by simp), if_neg (by rw [hd1, hd2]; norm_num), hd1, hd2, hd3,
      Real.sqrt_one]
    norm_num
  have hB : scoreOf [1] cexChunkB = -1 := by
    rw [scoreOf, if_pos (by simp [cexChunkB])]
    show cosineSimilarity (some [(1 : ℝ)]) (some cexChunkB.embedding) = -1
    rw [show cexChunkB.embedding = [(-1 : ℝ)] from rfl]
    exact hcos
  have hfs : cexStore.findSimilar (some [1]) 2 = [cexChunkA, cexChunkB] := by
    rw [RAGStore.findSimilar, if_neg (by simp [cexStore])]
    show (if ([(1 : ℝ)]).length = 0 then cexStore.chunks.take 2
      else ((sortDesc (cexStore.chunks.map (fun c => (c, scoreOf [1] c)))).take 2).map
        (·.1)) = _
    rw [if_neg (by simp)]
    rw [show cexStore.chunks = [cexChunkA, cexChunkB] from rfl]
    simp only [List.map_cons, List.map_nil, sortDesc, insertDesc, hA, hB]
    rw [if_pos (by norm_num)]
    simp
  rw [hfs, emptiesLast]
  intro h
  rcases List.pairwise_cons.mp h with ⟨h1, _⟩
  have := h1 cexChunkB (List.mem_cons_self _ _) rfl
  simp [cexChunkB] at this

/-- C2: with an absent or empty query embedding, `findSimilar` returns
the first `k` chunks in insertion order, hence exactly
`min k chunkCount` chunks; on an empty store the result is empty. -/
theorem findSimilar_positional_fallback (s : RAGStore) (qe : Option (List ℝ)) (k : ℕ)
    (h : qe = none ∨ qe = some []) :
    s.findSimilar qe k = s.chunks.take k ∧
      (s.findSimilar qe k).length = min k s.chunks.length := by
  have h1 : s.findSimilar qe k = s.chunks.take k := by
    rcases h with rfl | rfl
    · rw [RAGStore.findSimilar]
      by_cases h0 : s.chunks.length = 0
      · rw [if_pos h0, List.length_eq_zero.mp h0, List.take_nil]
      · rw [if_neg h0]
    · rw [RAGStore.findSimilar]
      by_cases h0 : s.chunks.length = 0
      · rw [if_pos h0, List.length_eq_zero.mp h0, List.take_nil]
      · rw [if_neg h0]
        show (if ([] : List ℝ).length = 0 then s.chunks.take k
          else ((sortDesc (s.chunks.map (fun c => (c, scoreOf [] c)))).take k).map
            (·.1)) = _
        rw [if_pos (show ([] : List ℝ).length = 0 from rfl)]
  exact ⟨h1, by rw [h1, List.length_take]⟩

/-- Witness for C2 at a three-chunk store with `k = 2` and an absent
query embedding. -/
theorem findSimilar_positional_fallback_witness :
    exStoreThree.findSimilar none 2 = exStoreThree.chunks.take 2 ∧
      (exStoreThree.findSimilar none 2).length = min 2 exStoreThree.chunks.length :=
  findSimilar_positional_fallback exStoreThree none 2 (Or.inl rfl)

/-- C3: `processDocument` clears the store first, so its result does not
depend on the previously loaded document in any way; every chunk of the
new document is stored (texts in order, regardless of the embedding
oracle's outcomes) and the returned count is the total number of
chunks. -/
theorem processDocument_isolates_documents (priorA priorB : RAGStore) (text title : Str)
    (oracle : ℕ → Option (List ℝ)) :
    processDocument priorA text title oracle = processDocument priorB text title oracle ∧
      (processDocument priorA text title oracle).1.chunks.map (·.text) =
        (chunkText text 1500 200).map (·.text) ∧
      (processDocument priorA text title oracle).2 = (chunkText text 1500 200).length := by
  refine ⟨rfl, ?_, ?_⟩
  · rw [processDocument]
    simpa using addChunks_texts oracle title (chunkText text 1500 200) 0
      { chunks := [], documentTitle := title }
  · rw [processDocument]
    simpa using addChunks_length oracle title (chunkText text 1500 200) 0
      { chunks := [], documentTitle := title }

/-- C4: the embedding retry loop (retry budget 2, the source default)
always returns a value — the exception-tracking semantics agrees with
the plain one and never surfaces an error; if every attempt is
rate-limited it performs all 3 attempts (2 retries) and returns absent;
on a first-attempt non-rate-limit failure (non-ok status, thrown
transport error, malformed body) it returns absent after exactly one
attempt; and the inter-retry delay doubles (2000 ms, then 4000 ms). -/
theorem generateEmbedding_never_throws (beh : ℕ → FetchOutcome) :
    embedLoopE beh 2 0 = .ok (generateEmbeddingWithRetry beh 2) ∧
    ((∀ a, a ≤ 2 → beh a = .rateLimited) →
      generateEmbeddingWithRetry beh 2 = none ∧ embedAttempts beh 2 = 3) ∧
    ((beh 0 = .notOk ∨ beh 0 = .throws ∨ beh 0 = .okBody none) →
      generateEmbeddingWithRetry beh 2 = none ∧ embedAttempts beh 2 = 1) ∧
    backoffDelayMs 1 = 2 * backoffDelayMs 0 := by
  refine ⟨?_, ?_, ?_, rfl⟩
  · cases h0 : beh 0 <;> cases h1 : beh 1 <;> cases h2 : beh 2 <;>
      simp [embedLoopE, embedLoopEF, generateEmbeddingWithRetry, embedLoop,
        embedLoopF, h0, h1, h2]
  · intro h
    have h0 := h 0 (by omega)
    have h1 := h 1 (by omega)
    have h2 := h 2 (by omega)
    refine ⟨?_, ?_⟩ <;>
      simp [generateEmbeddingWithRetry, embedAttempts, embedLoop, embedLoopF, h0, h1, h2]
  · rintro (h0 | h0 | h0) <;> refine ⟨?_, ?_⟩ <;>
      simp [generateEmbeddingWithRetry, embedAttempts, embedLoop, embedLoopF, h0]

/-- Witness for C4 under a behaviour that rate-limits every attempt. -/
theorem generateEmbedding_never_throws_witness :
    generateEmbeddingWithRetry behRateLimited 2 = none ∧
      embedAttempts behRateLimited 2 = 3 :=
  (generateEmbedding_never_throws behRateLimited).2.1 (fun _ _ => rfl)

/-- Counterexample to C5 as stated: the single-space document is
non-empty, yet `chunkText` returns no chunks at all. -/
theorem chunkText_empty_on_whitespace :
    wsOnlyText ≠ [] ∧ chunkText wsOnlyText 1500 200 = [] := by
  refine ⟨by decide, by decide⟩

/-- C5 (amended): for every document whose text contains at least one
non-whitespace character, `chunkText` returns at least one chunk; and
for every document, the whitespace-delimited word sequence of the
document embeds in order into the concatenated word sequences of the
returned chunk texts (content is preserved up to whitespace
normalization, with the overlap seeding only duplicating words). -/
theorem chunkText_reproduces_content (text : Str) (cs ov : ℕ) :
    List.Sublist (words text) (wordsOfChunks (chunkText text cs ov)) ∧
      (trim text ≠ [] → chunkText text cs ov ≠ []) :=
  ⟨chunkText_words_sublist text cs ov, chunkText_ne_nil text cs ov⟩

/-- Witness for C5's amended theorem on the document `"hi"`. -/
theorem chunkText_reproduces_content_witness :
    List.Sublist (words ['h', 'i']) (wordsOfChunks (chunkText ['h', 'i'] 1500 200)) ∧
      chunkText ['h', 'i'] 1500 200 ≠ [] :=
  ⟨(chunkText_reproduces_content ['h', 'i'] 1500 200).1,
   (chunkText_reproduces_content ['h', 'i'] 1500 200).2 (by decide)⟩

section NoNewlineInput

lemma trim_of_no_ws {l : Str} (h : ∀ c ∈ l, ¬ isWS c) : trim l = l := by
  have h1 : trimLeft l = l := by
    rw [trimLeft]
    cases l with
    | nil => rfl
    | cons c t =>
      rw [List.dropWhile_cons, if_neg (by simpa using h c (List.mem_cons_self _ _))]
  have h2 : trimRight l = l := by
    rw [trimRight]
    have hd : l.reverse.dropWhile isWS = l.reverse := by
      cases hr : l.reverse with
      | nil => rfl
      | cons c t =>
        have hc : c ∈ l := List.mem_reverse.mp (by rw [hr]; exact List.mem_cons_self _ _)
        rw [List.dropWhile_cons, if_neg (by simpa using h c hc)]
    rw [hd, List.reverse_reverse]
  rw [trim, h1, h2]

lemma splitParasGo_no_newline :
    ∀ (f : ℕ) (l cur : Str), l.length ≤ f → (∀ c ∈ l, c ≠ '\n') →
      splitParasGo f l cur = [cur.reverse ++ l] := by
  intro f
  induction f with
  | zero =>
    intro l cur hf _
    have : l = [] := List.length_eq_zero.mp (Nat.le_zero.mp hf)
    subst this
    simp [splitParasGo]
  | succ f ih =>
    intro l cur hf hnl
    cases l with
    | nil => simp [splitParasGo]
    | cons c rest =>
      simp only [List.length_cons, Nat.succ_le_succ_iff] at hf
      rw [splitParasGo, if_neg (by
        rintro ⟨hc, _⟩
        exact hnl c (List.mem_cons_self _ _) hc)]
      rw [ih rest (c :: cur) hf (fun d hd => hnl d (List.mem_cons_of_mem _ hd)),
        List.reverse_cons, List.append_assoc, List.singleton_append]

lemma splitParas_no_newline {l : Str} (h : ∀ c ∈ l, c ≠ '\n') :
    splitParas l = [l] := by
  rw [splitParas, splitParasGo_no_newline l.length l [] le_rfl h]
  rfl

end NoNewlineInput

/-- C6: when the paragraph phase yields fewer than 3 chunks and the text
is longer than 1000 characters, `chunkText` discards the paragraph
result and returns the sentence-based split with the same size threshold
(and, by `splitBySentences`'s definition, no overlap seeding). -/
theorem chunkText_sentence_fallback (text : Str) (cs ov : ℕ)
    (hlen : 1000 < text.length) (hfew : (paragraphChunks text cs).length < 3) :
    chunkText text cs ov = splitBySentences text cs := by
  simp only [chunkText]
  rw [if_pos ⟨hfew, hlen⟩]

/-- Witness for C6: a 2000-character document with no blank lines takes
the sentence-splitting path. -/
theorem chunkText_sentence_fallback_witness :
    chunkText text2000 1500 200 = splitBySentences text2000 1500 := by
  have hmem : ∀ c ∈ text2000, c = 'a' := fun c hc => List.eq_of_mem_replicate hc
  have hnl : ∀ c ∈ text2000, c ≠ '\n' := fun c hc => by rw [hmem c hc]; decide
  have hnws : ∀ c ∈ text2000, ¬ isWS c := fun c hc => by rw [hmem c hc]; decide
  have hne : text2000 ≠ [] := by
    intro h
    have := congrArg List.length h
    simp only [text2000, List.length_replicate, List.length_nil] at this
    omega
  have hpc : paragraphChunks text2000 1500 = [⟨text2000, 0⟩] := by
    rw [paragraphChunks, splitParas_no_newline hnl, chunkCore, if_neg (by simp),
      if_pos rfl, chunkCore, if_pos (by rw [trim_of_no_ws hnws]; exact hne),
      trim_of_no_ws hnws]
    rfl
  exact chunkText_sentence_fallback text2000 1500 200
    (by simp only [text2000, List.length_replicate]; norm_num)
    (by rw [hpc]; simp)

/-- Counterexample to C7 as stated: with a long all-whitespace first
paragraph, the flushed buffer trims to the empty string, so a chunk with
empty text is produced. -/
theorem chunkText_chunk_text_can_be_empty :
    ¬ (∀ c ∈ chunkText spaceParaText 10 200, c.text ≠ []) := by decide

section TrimmedInvariant

lemma chunkCore_trimmed (cs : ℕ) :
    ∀ (ps : List Str) (chunks : List PChunk) (cur : Str) (idx : ℕ),
      (∀ c ∈ chunks, trim c.text = c.text) →
      ∀ c ∈ chunkCore cs ps chunks cur idx, trim c.text = c.text := by
  intro ps
  induction ps with
  | nil =>
    intro chunks cur idx hch c hc
    rw [chunkCore] at hc
    by_cases h : trim cur ≠ []
    · rw [if_pos h] at hc
      rcases List.mem_append.mp hc with h1 | h1
      · exact hch c h1
      · rw [List.mem_singleton.mp h1]
        exact trim_trim cur
    · rw [if_neg h] at hc
      exact hch c hc
  | cons p ps ih =>
    intro chunks cur idx hch c hc
    rw [chunkCore] at hc
    by_cases h : cs < cur.length + p.length ∧ 0 < cur.length
    · rw [if_pos h] at hc
      refine ih _ _ _ ?_ c hc
      intro d hd
      rcases List.mem_append.mp hd with h1 | h1
      · exact hch d h1
      · rw [List.mem_singleton.mp h1]
        exact trim_trim cur
    · rw [if_neg h] at hc
      exact ih _ _ _ hch c hc

lemma sentCore_trimmed (cs : ℕ) :
    ∀ (ss : List Str) (chunks : List PChunk) (cur : Str) (idx : ℕ),
      (∀ c ∈ chunks, trim c.text = c.text) →
      ∀ c ∈ sentCore cs ss chunks cur idx, trim c.text = c.text := by
  intro ss
  induction ss with
  | nil =>
    intro chunks cur idx hch c hc
    rw [sentCore] at hc
    by_cases h : trim cur ≠ []
    · rw [if_pos h] at hc
      rcases List.mem_append.mp hc with h1 | h1
      · exact hch c h1
      · rw [List.mem_singleton.mp h1]
        exact trim_trim cur
    · rw [if_neg h] at hc
      exact hch c hc
  | cons s ss ih =>
    intro chunks cur idx hch c hc
    rw [sentCore] at hc
    by_cases h : cs < cur.length + s.length ∧ 0 < cur.length
    · rw [if_pos h] at hc
      refine ih _ _ _ ?_ c hc
      intro d hd
      rcases List.mem_append.mp hd with h1 | h1
      · exact hch d h1
      · rw [List.mem_singleton.mp h1]
        exact trim_trim cur
    · rw [if_neg h] at hc
      exact ih _ _ _ hch c hc

end TrimmedInvariant

/-- C7 (amended): every chunk produced by `chunkText`, on either
splitting path, has a text equal to its own trim (no leading or trailing
whitespace).  Non-emptiness of the text does not hold in general: an
accumulated buffer that is entirely whitespace trims to the empty
string (see the counterexample). -/
theorem chunkText_chunks_trimmed (text : Str) (cs ov : ℕ) (c : PChunk)
    (h : c ∈ chunkText text cs ov) : trim c.text = c.text := by
  simp only [chunkText] at h
  by_cases hf : (paragraphChunks text cs).length < 3 ∧ 1000 < text.length
  · rw [if_pos hf] at h
    exact sentCore_trimmed cs (splitSents text) [] [] 0 (by intro d hd; simp at hd) c h
  · rw [if_neg hf] at h
    exact chunkCore_trimmed cs (splitParas text) [] [] 0 (by intro d hd; simp at hd) c h

/-- Witness for C7's amended theorem on the first chunk of `"hi"`. -/
theorem chunkText_chunks_trimmed_witness :
    trim (⟨['h', 'i'], 0⟩ : PChunk).text = (⟨['h', 'i'], 0⟩ : PChunk).text :=
  chunkText_chunks_trimmed ['h', 'i'] 1500 200 ⟨['h', 'i'], 0⟩ (by decide)

section DotLemmas

lemma dotP_self_nonneg (a : List ℝ) : 0 ≤ dotP a a := by
  rw [dotP, List.zipWith_same]
  refine List.sum_nonneg ?_
  intro x hx
  rcases List.mem_map.mp hx with ⟨y, _, rfl⟩
  exact mul_self_nonneg y

lemma dotP_zero_left : ∀ (a b : List ℝ), (∀ x ∈ a, x = 0) → dotP a b = 0 := by
  intro a
  induction a with
  | nil => intro b _; cases b <;> simp [dotP]
  | cons x t ih =>
    intro b h
    cases b with
    | nil => simp [dotP]
    | cons y u =>
      have hx : x = 0 := h x (List.mem_cons_self _ _)
      have := ih u fun z hz => h z (List.mem_cons_of_mem _ hz)
      rw [dotP] at this ⊢
      simp only [List.zipWith_cons_cons, List.sum_cons, hx, zero_mul, zero_add]
      exact this

end DotLemmas

/-- C8: cosine similarity is exactly 1 on a pair of equal vectors of
non-zero norm, exactly 0 on orthogonal (zero dot product) pairs, and
exactly 0 whenever one argument is the zero vector — never a division
error (the function is total and the zero-norm guard short-circuits). -/
theorem cosineSimilarity_props (a b : List ℝ) :
    (dotP a a ≠ 0 → cosineSimilarity (some a) (some a) = 1) ∧
    (a.length = b.length → dotP a b = 0 → cosineSimilarity (some a) (some b) = 0) ∧
    ((∀ x ∈ a, x = 0) → cosineSimilarity (some a) (some b) = 0) := by
  refine ⟨?_, ?_, ?_⟩
  · intro h
    simp only [cosineSimilarity]
    rw [if_neg (by simp), if_neg (by simp [h]), Real.mul_self_sqrt (dotP_self_nonneg a),
      div_self h]
  · intro hlen hdot
    simp only [cosineSimilarity]
    rw [if_neg (by simp [hlen])]
    by_cases h0 : dotP a a = 0 ∨ dotP b b = 0
    · rw [if_pos h0]
    · rw [if_neg h0, hdot, zero_div]
  · intro hz
    have hA : dotP a a = 0 := dotP_zero_left a a hz
    simp only [cosineSimilarity]
    by_cases hlen : a.length ≠ b.length
    · rw [if_pos hlen]
    · rw [if_neg hlen, if_pos (Or.inl hA)]

/-- Witness for C8: equal vectors `[1]`, orthogonal vectors
`[1,0]`/`[0,1]`, and the zero vector `[0]` against `[5]`. -/
theorem cosineSimilarity_props_witness :
    cosineSimilarity (some [(1 : ℝ)]) (some [1]) = 1 ∧
    cosineSimilarity (some [(1 : ℝ), 0]) (some [0, 1]) = 0 ∧
    cosineSimilarity (some [(0 : ℝ)]) (some [5]) = 0 :=
  ⟨(cosineSimilarity_props [1] [1]).1 (by norm_num [dotP]),
   (cosineSimilarity_props [1, 0] [0, 1]).2.1 rfl (by norm_num [dotP]),
   (cosineSimilarity_props [0] [5]).2.2 (by intro x hx; simpa using hx)⟩

/-- C9: `retrieveContext` on an empty store returns the empty string
(no error); otherwise it returns the selected chunk texts joined with
the separator `"\n\n---\n\n"`, which differs from the natural paragraph
break `"\n\n"`. -/
theorem retrieveContext_empty_and_join (s : RAGStore) (qe : Option (List ℝ)) (k : ℕ) :
    (s.chunks.length = 0 → retrieveContext s qe k = []) ∧
    (s.chunks.length ≠ 0 → retrieveContext s qe k =
      List.intercalate contextSep ((s.findSimilar qe k).map (·.text))) ∧
    contextSep ≠ ['\n', '\n'] := by
  refine ⟨?_, ?_, by decide⟩
  · intro h
    rw [retrieveContext, if_pos h]
  · intro h
    rw [retrieveContext, if_neg h]

/-- Witness for C9: `retrieveContext(query, 4)` on an empty store
returns `""`. -/
theorem retrieveContext_empty_and_join_witness :
    retrieveContext ⟨[], []⟩ none 4 = [] :=
  (retrieveContext_empty_and_join ⟨[], []⟩ none 4).1 rfl

/-- C10: `cosineSimilarity` returns exactly 0 when either argument is
absent (`null`/`undefined`) or when the vectors' lengths differ — the
guards fire before any arithmetic, so no error, out-of-bounds read or
NaN can arise from these cases. -/
theorem cosineSimilarity_guards (x : Option (List ℝ)) (u v : List ℝ) :
    cosineSimilarity none x = 0 ∧ cosineSimilarity x none = 0 ∧
      (u.length ≠ v.length → cosineSimilarity (some u) (some v) = 0) := by
  refine ⟨rfl, ?_, ?_⟩
  · cases x <;> rfl
  · intro h
    simp only [cosineSimilarity]
    rw [if_pos h]

/-- Witness for C10 at `null` arguments and the length-1 versus length-0
pair. -/
theorem cosineSimilarity_guards_witness :
    cosineSimilarity none (some [(1 : ℝ)]) = 0 ∧
    cosineSimilarity (some [(1 : ℝ)]) none = 0 ∧
    cosineSimilarity (some [(1 : ℝ)]) (some []) = 0 :=
  ⟨(cosineSimilarity_guards (some [1]) [1] []).1,
   (cosineSimilarity_guards (some [1]) [1] []).2.1,
   (cosineSimilarity_guards (some [1]) [1] []).2.2 (by simp)⟩
